import Mathlib

/-!
# Verification of the secret-santa-generator core

This file embeds the core of the `secret_santa` package — participant
normalization (`_normalize_participants`), the randomized assignment phase
(`_try_random_permutation_exclusions`), the exact bipartite-matching phase
(`_maximum_bipartite_matching`, Kuhn's algorithm), and the driver
(`create_mapping`) — as executable Lean definitions, and proves the spec's
claims about them.

Modelling notes:
* Python values appearing in participant entries are modelled by `PyVal`
  (`None`, booleans, integers, strings, lists); Python truthiness by
  `PyVal.truthy` and `str(...)` by `pyStr`.
* A participant entry is a `Entry`: a dict (with its `"name"` and
  `"exclusions"` fields, each possibly absent), a bare string, or anything
  else (`other`).
* Python dicts keyed by strings are modelled as association lists
  (`lookupAssoc`, `setAssoc`); Python sets of strings as `Finset String`.
* The global random source of the randomized phase is an explicit parameter
  `rng : Nat → List String` giving the contents of `targets` after each
  in-place shuffle; faithfulness of the shuffle is expressed in theorems by
  the hypothesis that every `rng k` is a permutation of the people list.
* Exceptions are modelled by `Except String`, carrying the exact message the
  code raises.  The message
  "No valid mapping exists for given participants and constraints" is the
  `UnsatisfiableError` of the spec; the other messages are its
  `ValidationError`s.
* The recursive augmenting-path search `try_khun` is embedded with an
  explicit fuel (`khunAux`); the driver runs it with fuel equal to the
  number of distinct right-hand nodes, and the fuel-stability theorem for
  claim C9 shows this bound is never exhausted (the Python recursion
  terminates with depth bounded by the number of right nodes).
-/

/-- A Python value as it may appear in a participant entry. -/
inductive PyVal where
  | none
  | bool (b : Bool)
  | int (n : Int)
  | str (s : String)
  | list (xs : List PyVal)

/-- Python truthiness of a `PyVal` (used by the `or []` idiom on line 89). -/
def PyVal.truthy : PyVal → Bool
  | .none => false
  | .bool b => b
  | .int n => n != 0
  | .str s => s != ""
  | .list xs => !xs.isEmpty

/-- Whether a `PyVal` is a Python list (`isinstance(ex, (list, tuple))`). -/
def PyVal.isList : PyVal → Bool
  | .list _ => true
  | _ => false

mutual
/-- Python `str(...)` of a `PyVal` (line 92: `set(str(e) for e in ex)`). -/
def pyStr : PyVal → String
  | .none => "None"
  | .bool true => "True"
  | .bool false => "False"
  | .int n => toString n
  | .str s => s
  | .list xs => "[" ++ String.intercalate ", " (pyReprList xs) ++ "]"

/-- Python `repr(...)` of a `PyVal` (used for elements of a list by `str`). -/
def pyRepr : PyVal → String
  | .none => "None"
  | .bool true => "True"
  | .bool false => "False"
  | .int n => toString n
  | .str s => "'" ++ s ++ "'"
  | .list xs => "[" ++ String.intercalate ", " (pyReprList xs) ++ "]"

/-- `repr` of each element of a list of `PyVal`s. -/
def pyReprList : List PyVal → List String
  | [] => []
  | v :: vs => pyRepr v :: pyReprList vs
end

/-- One element of the raw participants list: a dict (only its `"name"` and
`"exclusions"` fields matter to the code, each possibly absent), a bare
string, or any other Python value. -/
inductive Entry where
  | dict (name : Option PyVal) (exclusions : Option PyVal)
  | str (s : String)
  | other

/-- Lookup in an association list modelling a Python dict (`d[k]` / `d.get(k)`). -/
def lookupAssoc {α : Type} (m : List (String × α)) (k : String) : Option α :=
  match m.find? (fun p => p.1 == k) with
  | some p => some p.2
  | Option.none => Option.none

/-- Python dict assignment `d[k] = v`: update in place if the key exists
(insertion order preserved), else append. -/
def setAssoc (m : List (String × String)) (k v : String) : List (String × String) :=
  match lookupAssoc m k with
  | some _ => m.map (fun p => if p.1 == k then (k, v) else p)
  | Option.none => m ++ [(k, v)]

/-- The loop body of `_normalize_participants` (lines 79–100), processing the
entries in order while accumulating the names list and the exclusions dict. -/
def normalizeAux : List Entry → List String → List (String × Finset String) →
    Except String (List String × List (String × Finset String))
  | [], names, exclusions => .ok (names, exclusions)
  | Entry.dict nameField exField :: rest, names, exclusions =>
    match nameField with
    | some (PyVal.str name) =>
      if name ∈ names then .error "Duplicate participant names not supported"
      else
        -- `ex = item.get("exclusions") or []`
        let ex := match exField with
          | some v => if v.truthy then v else PyVal.list []
          | Option.none => PyVal.list []
        match ex with
        | PyVal.list xs =>
          normalizeAux rest (names ++ [name])
            (exclusions ++ [(name, (xs.map pyStr).toFinset)])
        | _ => .error "'exclusions' must be a list of names"
    | _ => .error "Each participant must have a string 'name' field"
  | Entry.str s :: rest, names, exclusions =>
    if s ∈ names then .error "Duplicate participant names not supported"
    else normalizeAux rest (names ++ [s]) (exclusions ++ [(s, ∅)])
  | Entry.other :: _, _, _ => .error "Invalid participant entry; expected dict or string"

/-- `_normalize_participants` (lines 73–104): run the accumulation loop, then
filter every exclusion set down to known names. -/
def _normalize_participants (participants : List Entry) :
    Except String (List String × List (String × Finset String)) :=
  match normalizeAux participants [] [] with
  | .error e => .error e
  | .ok (names, exclusions) =>
    .ok (names, exclusions.map fun ke => (ke.1, ke.2.filter (· ∈ names)))

/-- `src in exclusions and tgt in exclusions[src]` (line 126). -/
def exclMem (exclusions : List (String × Finset String)) (src tgt : String) : Bool :=
  match lookupAssoc exclusions src with
  | some s => decide (tgt ∈ s)
  | Option.none => false

/-- The per-pair constraint check of the randomized phase (lines 122–128):
the pair is acceptable iff it is not a banned self-assignment and not an
excluded pairing. -/
def pairOk (exclusions : List (String × Finset String)) (ban_self : Bool)
    (src tgt : String) : Bool :=
  !(ban_self && src == tgt) && !(exclMem exclusions src tgt)

/-- The inner check of one randomized attempt: every position-wise pair of
`people` with the shuffled `targets` passes `pairOk`. -/
def permOk (people : List String) (exclusions : List (String × Finset String))
    (ban_self : Bool) (targets : List String) : Bool :=
  (people.zip targets).all fun p => pairOk exclusions ban_self p.1 p.2

/-- The attempt loop of `_try_random_permutation_exclusions` (lines 119–131):
`rng k` is the contents of `targets` after the shuffle of the attempt with
countdown `k`. -/
def tryRandomAux (people : List String) (exclusions : List (String × Finset String))
    (ban_self : Bool) (rng : Nat → List String) :
    Nat → Option (List (String × String))
  | 0 => Option.none
  | Nat.succ k =>
    let targets := rng k
    if permOk people exclusions ban_self targets then some (people.zip targets)
    else tryRandomAux people exclusions ban_self rng k

/-- `_try_random_permutation_exclusions` (lines 107–131). -/
def _try_random_permutation_exclusions (people : List String)
    (exclusions : List (String × Finset String)) (ban_self : Bool := true)
    (rng : Nat → List String) (attempts : Nat := 2000) :
    Option (List (String × String)) :=
  tryRandomAux people exclusions ban_self rng attempts

/-- `allowed_targets[u]` (line 143).  In the algorithm `u` is always a key of
`allowed`, so the `[]` default for a missing key is never exercised by
`_maximum_bipartite_matching`. -/
def allowedOf (allowed : List (String × List String)) (u : String) : List String :=
  match allowed.find? (fun p => p.1 == u) with
  | some p => p.2
  | Option.none => []

/-- All right-hand nodes mentioned in `allowed`, without duplicates.  The
number of these bounds the recursion depth of `try_khun`. -/
def rightsOf (allowed : List (String × List String)) : List String :=
  ((allowed.map Prod.snd).flatten).dedup

/-- The recursive augmenting-path search `try_khun` (lines 142–150), with the
loop over `allowed_targets[u]` made explicit (the `vs` argument) and an
explicit fuel bounding the recursion nesting.  Returns the success flag and
the updated `match_r` and `visited`.  When the fuel is exhausted at a matched
right node the inner call is treated as failed; the fuel-stability theorem
shows this branch is unreachable at the fuel used by the driver. -/
def khunAux (allowed : List (String × List String)) :
    Nat → String → List String → List (String × String) → List String →
    Bool × List (String × String) × List String
  | f, u, v :: vs, m, vis =>
    if v ∈ vis then khunAux allowed f u vs m vis
    else
      match lookupAssoc m v with
      | Option.none => (true, setAssoc m v u, vis ++ [v])
      | some w =>
        match f with
        | 0 => khunAux allowed 0 u vs m (vis ++ [v])
        | Nat.succ f' =>
          match khunAux allowed f' w (allowedOf allowed w) m (vis ++ [v]) with
          | (true, m1, vis1) => (true, setAssoc m1 v u, vis1)
          | (false, m1, vis1) => khunAux allowed (Nat.succ f') u vs m1 vis1
  | _, _, [], m, vis => (false, m, vis)
termination_by f _ vs _ _ => (f, vs.length)

/-- `try_khun u visited` as called by the driver, with fuel equal to the
number of distinct right nodes of `allowed`. -/
def try_khun (allowed : List (String × List String)) (u : String)
    (match_r : List (String × String)) (visited : List String) :
    Bool × List (String × String) × List String :=
  khunAux allowed (rightsOf allowed).length u (allowedOf allowed u) match_r visited

/-- The driver loop of `_maximum_bipartite_matching` (lines 152–155): process
each left node with a fresh `visited`; abort with `none` (Python `return {}`)
as soon as one cannot be matched. -/
def matchLoop (allowed : List (String × List String)) :
    List String → List (String × String) → Option (List (String × String))
  | [], match_r => some match_r
  | u :: rest, match_r =>
    match try_khun allowed u match_r [] with
    | (true, match_r', _) => matchLoop allowed rest match_r'
    | (false, _, _) => Option.none

/-- `_maximum_bipartite_matching` (lines 134–159): run the driver loop and
invert `match_r` (right→left) into the left→right result. -/
def _maximum_bipartite_matching (people : List String)
    (allowed_targets : List (String × List String)) : List (String × String) :=
  match matchLoop allowed_targets people [] with
  | some match_r => match_r.map fun rl => (rl.2, rl.1)
  | Option.none => []

/-- The allowed-targets map built by `create_mapping` (lines 187–195). -/
def buildAllowed (people : List String) (exclusions : List (String × Finset String))
    (ban_self : Bool) : List (String × List String) :=
  people.map fun p =>
    (p, people.filter fun t => (!ban_self || !(t == p)) && !(exclMem exclusions p t))

/-- `create_mapping` (lines 162–200): normalize, run the randomized phase,
then fall back to exact bipartite matching, raising when the matching is
empty. -/
def create_mapping (participants : List Entry) (ban_self : Bool)
    (rng : Nat → List String) : Except String (List (String × String)) :=
  match _normalize_participants participants with
  | .error e => .error e
  | .ok (people, exclusions) =>
    match _try_random_permutation_exclusions people exclusions ban_self rng with
    | some rand_map => .ok rand_map
    | Option.none =>
      let allowed := buildAllowed people exclusions ban_self
      let matching := _maximum_bipartite_matching people allowed
      if matching.isEmpty then
        .error "No valid mapping exists for given participants and constraints"
      else .ok matching

/-! ## Basic lemmas about the dict model -/

theorem lookupAssoc_cons {α : Type} (p : String × α) (m : List (String × α)) (k : String) :
    lookupAssoc (p :: m) k = if p.1 == k then some p.2 else lookupAssoc m k := by
  by_cases h : p.1 == k <;>
    simp [lookupAssoc, List.find?_cons_of_pos, List.find?_cons_of_neg, h]

theorem lookupAssoc_eq_none {α : Type} (m : List (String × α)) (k : String) :
    lookupAssoc m k = Option.none ↔ ∀ p ∈ m, p.1 ≠ k := by
  constructor
  · intro h p hp
    simp only [lookupAssoc] at h
    cases hfind : m.find? (fun q => q.1 == k) with
    | none =>
      have := List.find?_eq_none.mp hfind p hp
      simpa using this
    | some q => rw [hfind] at h; simp at h
  · intro h
    simp only [lookupAssoc]
    have : m.find? (fun q => q.1 == k) = Option.none := by
      apply List.find?_eq_none.mpr
      intro p hp
      simpa using h p hp
    rw [this]

theorem lookupAssoc_mem {α : Type} {m : List (String × α)} {k : String} {v : α}
    (h : lookupAssoc m k = some v) : (k, v) ∈ m := by
  simp only [lookupAssoc] at h
  cases hfind : m.find? (fun q => q.1 == k) with
  | none => rw [hfind] at h; simp at h
  | some q =>
    rw [hfind] at h
    have hq := List.find?_some hfind
    have hmem := List.mem_of_find?_eq_some hfind
    simp at h hq
    rcases h with h
    have : q = (k, v) := by
      cases q with
      | mk a b => simp at hq h ⊢; exact ⟨hq, h⟩
    rw [this] at hmem
    exact hmem

/-! ## Normalization invariants -/

theorem normalizeAux_spec : ∀ (l : List Entry) (names0 : List String)
    (excl0 : List (String × Finset String)) (names : List String)
    (excl : List (String × Finset String)),
    normalizeAux l names0 excl0 = .ok (names, excl) →
    excl0.map Prod.fst = names0 →
    excl.map Prod.fst = names ∧ (names0.Nodup → names.Nodup) ∧
      ∃ t, names = names0 ++ t := by
  intro l
  induction l with
  | nil =>
    intro names0 excl0 names excl h hmap
    simp only [normalizeAux] at h
    cases h
    exact ⟨hmap, fun h => h, [], by simp⟩
  | cons e rest ih =>
    intro names0 excl0 names excl h hmap
    cases e with
    | dict nameField exField =>
      simp only [normalizeAux] at h
      cases nameField with
      | none => simp at h
      | some nv =>
        cases nv with
        | str name =>
          by_cases hdup : name ∈ names0
          · simp [hdup] at h
          · simp only [hdup, if_false, if_neg hdup] at h
            cases hex : (match exField with
              | some v => if v.truthy then v else PyVal.list []
              | Option.none => PyVal.list []) with
            | list xs =>
              rw [hex] at h
              have := ih (names0 ++ [name]) (excl0 ++ [(name, (xs.map pyStr).toFinset)])
                names excl h (by simp [hmap])
              obtain ⟨h1, h2, t, h3⟩ := this
              refine ⟨h1, fun hnd => h2 ?_, name :: t, by simp [h3]⟩
              simp [List.nodup_append, hnd, hdup]
            | none => rw [hex] at h; simp at h
            | bool b => rw [hex] at h; simp at h
            | int n => rw [hex] at h; simp at h
            | str s => rw [hex] at h; simp at h
        | none => simp at h
        | bool b => simp at h
        | int n => simp at h
        | list xs => simp at h
    | str s =>
      simp only [normalizeAux] at h
      by_cases hdup : s ∈ names0
      · simp [hdup] at h
      · simp only [hdup, if_false, if_neg hdup] at h
        have := ih (names0 ++ [s]) (excl0 ++ [(s, ∅)]) names excl h (by simp [hmap])
        obtain ⟨h1, h2, t, h3⟩ := this
        refine ⟨h1, fun hnd => h2 ?_, s :: t, by simp [h3]⟩
        simp [List.nodup_append, hnd, hdup]
    | other => simp [normalizeAux] at h

theorem normalize_spec {participants : List Entry} {names : List String}
    {excl : List (String × Finset String)}
    (h : _normalize_participants participants = .ok (names, excl)) :
    names.Nodup ∧ excl.map Prod.fst = names ∧
      ∀ p ∈ excl, ∀ e ∈ p.2, e ∈ names := by
  simp only [_normalize_participants] at h
  cases haux : normalizeAux participants [] [] with
  | error e => rw [haux] at h; simp at h
  | ok r =>
    rw [haux] at h
    obtain ⟨names', excl'⟩ := r
    simp only [Except.ok.injEq, Prod.mk.injEq] at h
    obtain ⟨hn, he⟩ := h
    rw [← hn, ← he]
    obtain ⟨h1, h2, _⟩ := normalizeAux_spec participants [] [] names' excl' haux rfl
    refine ⟨h2 (by simp), ?_, ?_⟩
    · simpa [List.map_map, Function.comp] using h1
    · intro p hp e hemem
      obtain ⟨q, hq, hqe⟩ := List.mem_map.mp hp
      rw [← hqe] at hemem
      simp only at hemem
      exact (Finset.mem_filter.mp hemem).2

/-! ## Claims C5, C6, C7, C10 -/

/-- **C5.** For the empty participant list, `create_mapping` returns the empty
mapping and does not raise, for any value of `ban_self` (and any random
source): the first randomized attempt trivially succeeds with the empty
pairing. -/
theorem claim_C5 (ban_self : Bool) (rng : Nat → List String) :
    create_mapping [] ban_self rng = .ok [] := rfl

theorem normalizeAux_error_of_bad : ∀ (l : List Entry) (names0 : List String)
    (excl0 : List (String × Finset String)),
    (∃ n v, Entry.dict n (some v) ∈ l ∧ v.truthy = true ∧ v.isList = false) →
    ∃ e, normalizeAux l names0 excl0 = .error e := by
  intro l
  induction l with
  | nil =>
    intro _ _ h
    obtain ⟨n, v, hmem, _, _⟩ := h
    simp at hmem
  | cons entry rest ih =>
    intro names0 excl0 h
    obtain ⟨n, v, hmem, htr, hnl⟩ := h
    cases entry with
    | dict nameField exField =>
      rcases List.mem_cons.mp hmem with heq | hmem'
      · injection heq with hn hex
        subst hn
        subst hex
        cases n with
        | none => simp [normalizeAux]
        | some nv =>
          cases nv with
          | str name =>
            by_cases hdup : name ∈ names0
            · simp [normalizeAux, hdup]
            · cases v with
              | list xs => simp [PyVal.isList] at hnl
              | none => simp [PyVal.truthy] at htr
              | bool b => simp [normalizeAux, hdup, htr]
              | int m => simp [normalizeAux, hdup, htr]
              | str s => simp [normalizeAux, hdup, htr]
          | none => simp [normalizeAux]
          | bool b => simp [normalizeAux]
          | int m => simp [normalizeAux]
          | list xs => simp [normalizeAux]
      · -- the bad entry is further down: either this entry errors or we recurse
        cases nameField with
        | none => simp [normalizeAux]
        | some nv =>
          cases nv with
          | str name =>
            by_cases hdup : name ∈ names0
            · simp [normalizeAux, hdup]
            · cases hex : (match exField with
                | some w => if w.truthy then w else PyVal.list []
                | Option.none => PyVal.list []) with
              | list xs =>
                obtain ⟨e, he⟩ := ih (names0 ++ [name])
                  (excl0 ++ [(name, (xs.map pyStr).toFinset)]) ⟨n, v, hmem', htr, hnl⟩
                refine ⟨e, ?_⟩
                simp only [normalizeAux, hdup, if_neg hdup, hex]
                exact he
              | none => simp [normalizeAux, hdup, hex]
              | bool b => simp [normalizeAux, hdup, hex]
              | int m => simp [normalizeAux, hdup, hex]
              | str s => simp [normalizeAux, hdup, hex]
          | none => simp [normalizeAux]
          | bool b => simp [normalizeAux]
          | int m => simp [normalizeAux]
          | list xs => simp [normalizeAux]
    | str s =>
      have hmem' : Entry.dict n (some v) ∈ rest := by
        rcases List.mem_cons.mp hmem with heq | hmem'
        · exact absurd heq (by simp)
        · exact hmem'
      by_cases hdup : s ∈ names0
      · simp [normalizeAux, hdup]
      · obtain ⟨e, he⟩ := ih (names0 ++ [s]) (excl0 ++ [(s, ∅)]) ⟨n, v, hmem', htr, hnl⟩
        refine ⟨e, ?_⟩
        simp only [normalizeAux, hdup, if_neg hdup]
        exact he
    | other => simp [normalizeAux]

theorem claim_C6_counterexample :
    (PyVal.str "").truthy = false ∧ (PyVal.str "").isList = false ∧
    _normalize_participants [Entry.dict (some (PyVal.str "A")) (some (PyVal.str ""))] =
      .ok (["A"], [("A", ∅)]) := by
  refine ⟨by decide, rfl, rfl⟩

/-- **C6 (amended).** For every participant entry that is a record whose
`exclusions` field is present, *truthy*, and not a list, normalization of any
participants list containing that entry fails with a `ValidationError`. -/
theorem claim_C6 (participants : List Entry)
    (h : ∃ n v, Entry.dict n (some v) ∈ participants ∧ v.truthy = true ∧
      v.isList = false) :
    ∃ e, _normalize_participants participants = .error e := by
  obtain ⟨e, he⟩ := normalizeAux_error_of_bad participants [] [] h
  exact ⟨e, by simp [_normalize_participants, he]⟩

theorem claim_C6_witness :
    ∃ e, _normalize_participants
      [Entry.dict (some (PyVal.str "A")) (some (PyVal.str "x"))] = .error e :=
  claim_C6 _ ⟨some (PyVal.str "A"), PyVal.str "x",
    List.mem_singleton.mpr rfl, by decide, rfl⟩

/-- **C7.** Exclusion entries naming a non-participant are silently dropped:
on every successful normalization every normalized exclusion set contains
only participant names, and in particular
`[{"name":"A","exclusions":["Ghost"]}, {"name":"B","exclusions":[]}]`
normalizes without error, with an empty exclusion set for `A`. -/
theorem claim_C7 :
    (∀ (participants : List Entry) (names : List String)
        (excl : List (String × Finset String)),
      _normalize_participants participants = .ok (names, excl) →
      ∀ p ∈ excl, ∀ e ∈ p.2, e ∈ names) ∧
    _normalize_participants
        [Entry.dict (some (PyVal.str "A")) (some (PyVal.list [PyVal.str "Ghost"])),
         Entry.dict (some (PyVal.str "B")) (some (PyVal.list []))] =
      .ok (["A", "B"], [("A", ∅), ("B", ∅)]) := by
  refine ⟨?_, rfl⟩
  intro participants names excl h
  exact (normalize_spec h).2.2

theorem claim_C7_witness : ("B" : String) ∈ ["A", "B"] :=
  claim_C7.1
    [Entry.dict (some (PyVal.str "A")) (some (PyVal.list [PyVal.str "B"])),
     Entry.str "B"]
    ["A", "B"] [("A", {"B"}), ("B", ∅)] rfl ("A", {"B"}) (by decide)
    "B" (by decide)

theorem tryRandomAux_succ_of_ok {people : List String}
    {exclusions : List (String × Finset String)} {ban_self : Bool}
    {rng : Nat → List String} {k : Nat}
    (h : permOk people exclusions ban_self (rng k) = true) :
    tryRandomAux people exclusions ban_self rng (Nat.succ k) =
      some (people.zip (rng k)) := by
  simp [tryRandomAux, h]

/-- **C10.** With `ban_self=false`, self-assignment is permitted: a single
participant with no exclusions is assigned to themselves (the first
randomized attempt already succeeds), and `create_mapping` does not raise. -/
theorem claim_C10 (name : String) (rng : Nat → List String)
    (h : ∀ k, (rng k).Perm [name]) :
    create_mapping [Entry.str name] false rng = .ok [(name, name)] := by
  have h1999 : rng 1999 = [name] := List.perm_singleton.mp (h 1999)
  have hnorm : _normalize_participants [Entry.str name] =
      .ok ([name], [(name, ∅)]) := by
    simp [_normalize_participants, normalizeAux]
  have hok : permOk [name] [(name, ∅)] false (rng 1999) = true := by
    rw [h1999]
    simp [permOk, pairOk, exclMem, lookupAssoc_cons]
  have hrand : _try_random_permutation_exclusions [name] [(name, ∅)] false rng =
      some [(name, name)] := by
    show tryRandomAux [name] [(name, ∅)] false rng 2000 = _
    have h2000 : (2000 : Nat) = Nat.succ 1999 := rfl
    rw [h2000, tryRandomAux_succ_of_ok hok, h1999]
    rfl
  simp [create_mapping, hnorm, _try_random_permutation_exclusions] at hrand ⊢
  simp [hrand]

theorem claim_C10_witness :
    create_mapping [Entry.str "Alice"] false (fun _ => ["Alice"]) =
      .ok [("Alice", "Alice")] :=
  claim_C10 "Alice" (fun _ => ["Alice"]) (fun _ => List.Perm.refl _)

/-! ## Claim C8: idempotence of normalization -/

theorem normalizeAux_canonical (ln : String → List String) :
    ∀ (names : List String) (names0 : List String)
      (excl0 : List (String × Finset String)),
    names.Nodup → (∀ n ∈ names, n ∉ names0) →
    normalizeAux (names.map fun n => Entry.dict (some (PyVal.str n))
        (some (PyVal.list ((ln n).map PyVal.str)))) names0 excl0 =
      .ok (names0 ++ names, excl0 ++ names.map fun n => (n, (ln n).toFinset)) := by
  intro names
  induction names with
  | nil => intro names0 excl0 _ _; simp [normalizeAux]
  | cons n rest ih =>
    intro names0 excl0 hnd hdisj
    have hn0 : n ∉ names0 := hdisj n (by simp)
    have hstep : normalizeAux ((n :: rest).map fun x => Entry.dict (some (PyVal.str x))
        (some (PyVal.list ((ln x).map PyVal.str)))) names0 excl0 =
        normalizeAux (rest.map fun x => Entry.dict (some (PyVal.str x))
          (some (PyVal.list ((ln x).map PyVal.str))))
          (names0 ++ [n]) (excl0 ++ [(n, (ln n).toFinset)]) := by
      by_cases hempty : ln n = []
      · simp [normalizeAux, hn0, hempty, PyVal.truthy]
      · have htruthy : (PyVal.list ((ln n).map PyVal.str)).truthy = true := by
          simp [PyVal.truthy, List.isEmpty_iff, hempty]
        have hmapmap : ((ln n).map PyVal.str).map pyStr = ln n := by
          rw [List.map_map]
          have : (pyStr ∘ PyVal.str) = id := by
            funext s
            simp [pyStr, Function.comp]
          rw [this, List.map_id]
        simp [normalizeAux, hn0, htruthy, hmapmap]
    rw [hstep, ih (names0 ++ [n]) (excl0 ++ [(n, (ln n).toFinset)])
      (List.Nodup.of_cons hnd) ?_]
    · simp
    · intro x hx
      simp only [List.mem_append, List.mem_singleton]
      push_neg
      exact ⟨hdisj x (by simp [hx]), fun hxn => (List.nodup_cons.mp hnd).1 (hxn ▸ hx)⟩

theorem canonical_reconstruct (ln : String → List String) :
    ∀ (excl : List (String × Finset String)) (names : List String),
    excl.map Prod.fst = names → (∀ p ∈ excl, (ln p.1).toFinset = p.2) →
    (names.map fun n => (n, (ln n).toFinset)) = excl := by
  intro excl
  induction excl with
  | nil =>
    intro names h _
    simp at h
    simp [← h]
  | cons p rest ih =>
    intro names h hln
    obtain ⟨k, s⟩ := p
    rw [← h]
    simp only [List.map_cons, List.map_map]
    have hhead : (k, (ln k).toFinset) = (k, s) := by
      have := hln (k, s) (by simp)
      simp at this
      simp [this]
    have htail := ih (rest.map Prod.fst) rfl (fun q hq => hln q (by simp [hq]))
    simp only [List.map_map] at htail
    rw [hhead]
    congr 1

/-- **C8.** Normalization is idempotent: if an input normalizes to
`(names, exclusions)`, then re-normalizing the canonical record list
`[{"name": n, "exclusions": list(exclusions[n])} for n in names]` (with
`list(exclusions[n])` any enumeration of the set) yields exactly the same
names sequence and the same exclusion-set map. -/
theorem claim_C8 (participants : List Entry) (names : List String)
    (excl : List (String × Finset String)) (ln : String → List String)
    (h : _normalize_participants participants = .ok (names, excl))
    (hln : ∀ p ∈ excl, (ln p.1).toFinset = p.2) :
    _normalize_participants
      (names.map fun n => Entry.dict (some (PyVal.str n))
        (some (PyVal.list ((ln n).map PyVal.str)))) = .ok (names, excl) := by
  obtain ⟨hnd, hmap, hsub⟩ := normalize_spec h
  have hrec : (names.map fun n => (n, (ln n).toFinset)) = excl :=
    canonical_reconstruct ln excl names hmap hln
  have hcanon := normalizeAux_canonical ln names [] [] hnd (by simp)
  simp only [List.nil_append, List.append_nil] at hcanon
  rw [hrec] at hcanon
  simp only [_normalize_participants, hcanon]
  have hfilter : (excl.map fun ke => (ke.1, ke.2.filter (· ∈ names))) = excl := by
    have : ∀ ke ∈ excl, (ke.1, ke.2.filter (· ∈ names)) = ke := by
      intro ke hke
      have : ke.2.filter (· ∈ names) = ke.2 :=
        Finset.filter_true_of_mem (fun e he => hsub ke hke e he)
      rw [this]
    calc (excl.map fun ke => (ke.1, ke.2.filter (· ∈ names)))
        = excl.map id := List.map_congr_left this
      _ = excl := List.map_id excl
  rw [hfilter]

theorem claim_C8_witness :
    _normalize_participants
      [Entry.dict (some (PyVal.str "A")) (some (PyVal.list [PyVal.str "B"])),
       Entry.dict (some (PyVal.str "B")) (some (PyVal.list []))] =
      .ok (["A", "B"], [("A", {"B"}), ("B", ∅)]) :=
  claim_C8
    [Entry.dict (some (PyVal.str "A")) (some (PyVal.list [PyVal.str "B"])),
     Entry.str "B"]
    ["A", "B"] [("A", {"B"}), ("B", ∅)]
    (fun n => if n = "A" then ["B"] else []) rfl (by decide)

/-! ## Lemmas about `setAssoc` -/

theorem lookup_map_update_ne {m : List (String × String)} {k r : String} (v : String)
    (h : r ≠ k) :
    lookupAssoc (m.map fun p => if p.1 == k then (k, v) else p) r = lookupAssoc m r := by
  induction m with
  | nil => rfl
  | cons q rest ih =>
    simp only [List.map_cons]
    rw [lookupAssoc_cons, lookupAssoc_cons]
    by_cases hq : (q.1 == k) = true
    · have hq' : q.1 = k := by simpa using hq
      rw [if_pos hq]
      have h1 : ¬(((k, v).1 == r) = true) := by simpa using fun he => h he.symm
      have h2 : ¬((q.1 == r) = true) := by
        rw [hq']
        simpa using fun he => h he.symm
      rw [if_neg h1, if_neg h2]
      exact ih
    · rw [if_neg hq]
      by_cases hqr : (q.1 == r) = true
      · rw [if_pos hqr, if_pos hqr]
      · rw [if_neg hqr, if_neg hqr]
        exact ih

theorem lookup_append_single_ne {m : List (String × String)} {k r : String} (v : String)
    (h : r ≠ k) :
    lookupAssoc (m ++ [(k, v)]) r = lookupAssoc m r := by
  induction m with
  | nil =>
    simp only [List.nil_append]
    rw [lookupAssoc_cons]
    have : ((k, v).1 == r) = false := by simpa using fun he => h he.symm
    simp [this]
  | cons q rest ih =>
    simp only [List.cons_append]
    rw [lookupAssoc_cons, lookupAssoc_cons]
    by_cases hqr : q.1 == r <;> simp [hqr, ih]

theorem lookup_setAssoc_ne {m : List (String × String)} {k r : String} (v : String)
    (h : r ≠ k) : lookupAssoc (setAssoc m k v) r = lookupAssoc m r := by
  unfold setAssoc
  cases hl : lookupAssoc m k with
  | none => exact lookup_append_single_ne v h
  | some w => exact lookup_map_update_ne v h

theorem lookupAssoc_none_not_key {α : Type} {m : List (String × α)} {k : String}
    (h : lookupAssoc m k = Option.none) : k ∉ m.map Prod.fst := by
  intro hk
  obtain ⟨p, hp, hpk⟩ := List.mem_map.mp hk
  exact (lookupAssoc_eq_none m k).mp h p hp hpk

theorem lookupAssoc_some_decomp {α : Type} {m : List (String × α)} {k : String} {v : α}
    (h : lookupAssoc m k = some v) :
    ∃ m1 m2, m = m1 ++ (k, v) :: m2 ∧ ∀ p ∈ m1, (p.1 == k) = false := by
  induction m with
  | nil => simp [lookupAssoc] at h
  | cons q rest ih =>
    rw [lookupAssoc_cons] at h
    by_cases hq : q.1 == k
    · have hq' : q.1 = k := by simpa using hq
      simp only [hq, if_pos] at h
      refine ⟨[], rest, ?_, by simp⟩
      have : q = (k, v) := by
        cases q
        simp_all
      simp [this]
    · simp only [hq, Bool.false_eq_true, if_false, if_neg] at h
      obtain ⟨m1, m2, hm, hm1⟩ := ih h
      refine ⟨q :: m1, m2, by simp [hm], ?_⟩
      intro p hp
      rcases List.mem_cons.mp hp with rfl | hp'
      · simpa using hq
      · exact hm1 p hp'

theorem lookupAssoc_append_left_none {α : Type} {m1 : List (String × α)}
    (rest : List (String × α)) (k : String) (h : ∀ p ∈ m1, (p.1 == k) = false) :
    lookupAssoc (m1 ++ rest) k = lookupAssoc rest k := by
  induction m1 with
  | nil => simp
  | cons q m1 ih =>
    simp only [List.cons_append]
    rw [lookupAssoc_cons]
    rw [if_neg (by simp [h q (by simp)])]
    exact ih (fun p hp => h p (by simp [hp]))

theorem setAssoc_decomp {m m1 m2 : List (String × String)} {k w : String} (v : String)
    (hnd : (m.map Prod.fst).Nodup) (hm : m = m1 ++ (k, w) :: m2) :
    setAssoc m k v = m1 ++ (k, v) :: m2 := by
  subst hm
  have hkeys := hnd
  rw [List.map_append, List.map_cons] at hkeys
  rw [List.nodup_append] at hkeys
  obtain ⟨hnd1, hnd2, hdisj⟩ := hkeys
  have hm1 : ∀ p ∈ m1, (p.1 == k) = false := by
    intro p hp
    have hpk : p.1 ∈ m1.map Prod.fst := List.mem_map_of_mem _ hp
    have := hdisj hpk
    simp at this ⊢
    exact this.1
  have hm2 : ∀ p ∈ m2, (p.1 == k) = false := by
    intro p hp
    have hpk : p.1 ∈ m2.map Prod.fst := List.mem_map_of_mem _ hp
    have hk : k ∉ m2.map Prod.fst := by
      have := List.nodup_cons.mp hnd2
      exact this.1
    simp only [beq_eq_false_iff_ne, ne_eq]
    intro he
    exact hk (he ▸ hpk)
  have hlook : lookupAssoc (m1 ++ (k, w) :: m2) k = some w := by
    rw [lookupAssoc_append_left_none _ k hm1, lookupAssoc_cons]
    simp
  unfold setAssoc
  rw [hlook]
  simp only [List.map_append, List.map_cons]
  congr 1
  · exact List.map_congr_left (fun p hp => by simp [hm1 p hp]) |>.trans (List.map_id m1)
  · simp only [beq_self_eq_true, if_pos]
    congr 1
    exact List.map_congr_left (fun p hp => by simp [hm2 p hp]) |>.trans (List.map_id m2)

theorem setAssoc_keys_update {m : List (String × String)} {k w : String} (v : String)
    (h : lookupAssoc m k = some w) :
    (setAssoc m k v).map Prod.fst = m.map Prod.fst := by
  unfold setAssoc
  rw [h]
  rw [List.map_map]
  apply List.map_congr_left
  intro p hp
  by_cases hpk : p.1 == k
  · have : p.1 = k := by simpa using hpk
    simp [Function.comp, hpk, this]
  · simp [Function.comp, hpk]

theorem setAssoc_values_update {m : List (String × String)} {k w : String} (v : String)
    (hnd : (m.map Prod.fst).Nodup) (h : lookupAssoc m k = some w) :
    (w :: (setAssoc m k v).map Prod.snd).Perm (v :: m.map Prod.snd) := by
  obtain ⟨m1, m2, hm, _⟩ := lookupAssoc_some_decomp h
  rw [setAssoc_decomp v hnd hm, hm]
  simp only [List.map_append, List.map_cons]
  refine List.Perm.trans (List.Perm.cons w List.perm_middle) ?_
  refine List.Perm.trans (List.Perm.swap v w _) ?_
  exact List.Perm.cons v List.perm_middle.symm

theorem setAssoc_mem {m : List (String × String)} {k v : String} {p : String × String}
    (hp : p ∈ setAssoc m k v) : p = (k, v) ∨ p ∈ m := by
  unfold setAssoc at hp
  cases hl : lookupAssoc m k with
  | none =>
    rw [hl] at hp
    rcases List.mem_append.mp hp with h | h
    · exact Or.inr h
    · simp at h
      exact Or.inl h
  | some w =>
    rw [hl] at hp
    obtain ⟨q, hq, hqp⟩ := List.mem_map.mp hp
    by_cases hqk : q.1 == k
    · rw [if_pos hqk] at hqp
      exact Or.inl hqp.symm
    · rw [if_neg (by simp_all)] at hqp
      exact Or.inr (hqp ▸ hq)

theorem setAssoc_keys_new {m : List (String × String)} {k : String} (v : String)
    (h : lookupAssoc m k = Option.none) :
    (setAssoc m k v).map Prod.fst = m.map Prod.fst ++ [k] ∧
    (setAssoc m k v).map Prod.snd = m.map Prod.snd ++ [v] := by
  unfold setAssoc
  rw [h]
  simp

/-! ## Structural lemmas about the augmenting-path search -/

theorem allowedOf_subset_rights (allowed : List (String × List String)) (u : String) :
    ∀ x ∈ allowedOf allowed u, x ∈ rightsOf allowed := by
  intro x hx
  unfold allowedOf at hx
  cases hfind : allowed.find? (fun p => p.1 == u) with
  | none => rw [hfind] at hx; simp at hx
  | some p =>
    rw [hfind] at hx
    have hp : p ∈ allowed := List.mem_of_find?_eq_some hfind
    unfold rightsOf
    rw [List.mem_dedup]
    exact List.mem_flatten.mpr ⟨p.2, List.mem_map_of_mem _ hp, hx⟩

theorem khunAux_visited_mono (allowed : List (String × List String))
    (f : Nat) (u : String) (vs : List String) (m : List (String × String))
    (vis : List String) :
    ∃ t, (khunAux allowed f u vs m vis).2.2 = vis ++ t := by
  induction f, u, vs, m, vis using khunAux.induct allowed with
  | case1 f u v vs m vis hv ih =>
    rw [khunAux]
    simp only [if_pos hv]
    exact ih
  | case2 f u v vs m vis hv hl =>
    rw [khunAux]
    simp only [if_neg hv, hl]
    exact ⟨[v], rfl⟩
  | case3 u v vs m vis hv w hl ih =>
    rw [khunAux]
    simp only [if_neg hv, hl]
    obtain ⟨t, ht⟩ := ih
    exact ⟨v :: t, by simpa using ht⟩
  | case4 u v vs m vis hv w hl k m1 vis1 hrec ih =>
    rw [khunAux]
    simp only [if_neg hv, hl, hrec]
    obtain ⟨t, ht⟩ := ih
    rw [hrec] at ht
    exact ⟨v :: t, by simpa using ht⟩
  | case5 u v vs m vis hv w hl k m1 vis1 hrec ih1 ih2 =>
    rw [khunAux]
    simp only [if_neg hv, hl, hrec]
    obtain ⟨t1, ht1⟩ := ih1
    rw [hrec] at ht1
    simp only at ht1
    obtain ⟨t2, ht2⟩ := ih2
    refine ⟨[v] ++ t1 ++ t2, ?_⟩
    rw [ht2, ht1]
    simp
  | case6 f u m vis =>
    rw [khunAux]
    exact ⟨[], by simp⟩

theorem khunAux_failure_matching (allowed : List (String × List String))
    (f : Nat) (u : String) (vs : List String) (m : List (String × String))
    (vis : List String) :
    (khunAux allowed f u vs m vis).1 = false →
    (khunAux allowed f u vs m vis).2.1 = m := by
  induction f, u, vs, m, vis using khunAux.induct allowed with
  | case1 f u v vs m vis hv ih =>
    rw [khunAux]
    simp only [if_pos hv]
    exact ih
  | case2 f u v vs m vis hv hl =>
    rw [khunAux]
    simp only [if_neg hv, hl]
    intro h
    simp at h
  | case3 u v vs m vis hv w hl ih =>
    rw [khunAux]
    simp only [if_neg hv, hl]
    exact ih
  | case4 u v vs m vis hv w hl k m1 vis1 hrec ih =>
    rw [khunAux]
    simp only [if_neg hv, hl, hrec]
    intro h
    simp at h
  | case5 u v vs m vis hv w hl k m1 vis1 hrec ih1 ih2 =>
    rw [khunAux]
    simp only [if_neg hv, hl, hrec]
    intro h
    have hm1 : m1 = m := by
      have := ih1
      rw [hrec] at this
      simpa using this
    rw [ih2 h, hm1]
  | case6 f u m vis =>
    rw [khunAux]
    intro _
    rfl

theorem khunAux_visited_lookup (allowed : List (String × List String))
    (f : Nat) (u : String) (vs : List String) (m : List (String × String))
    (vis : List String) :
    ∀ r ∈ vis, lookupAssoc (khunAux allowed f u vs m vis).2.1 r = lookupAssoc m r := by
  induction f, u, vs, m, vis using khunAux.induct allowed with
  | case1 f u v vs m vis hv ih =>
    rw [khunAux]
    simp only [if_pos hv]
    exact ih
  | case2 f u v vs m vis hv hl =>
    rw [khunAux]
    simp only [if_neg hv, hl]
    intro r hr
    have hrv : r ≠ v := fun he => hv (he ▸ hr)
    exact lookup_setAssoc_ne u hrv
  | case3 u v vs m vis hv w hl ih =>
    rw [khunAux]
    simp only [if_neg hv, hl]
    intro r hr
    exact ih r (by simp [hr])
  | case4 u v vs m vis hv w hl k m1 vis1 hrec ih =>
    rw [khunAux]
    simp only [if_neg hv, hl, hrec]
    intro r hr
    have hrv : r ≠ v := fun he => hv (he ▸ hr)
    rw [lookup_setAssoc_ne u hrv]
    have := ih r (by simp [hr])
    rw [hrec] at this
    exact this
  | case5 u v vs m vis hv w hl k m1 vis1 hrec ih1 ih2 =>
    rw [khunAux]
    simp only [if_neg hv, hl, hrec]
    intro r hr
    have hvis1 : ∃ t, vis1 = (vis ++ [v]) ++ t := by
      have := khunAux_visited_mono allowed k w (allowedOf allowed w) m (vis ++ [v])
      rw [hrec] at this
      simpa using this
    obtain ⟨t, ht⟩ := hvis1
    have hr1 : r ∈ vis1 := by simp [ht, hr]
    have h2 := ih2 r hr1
    have h1 := ih1 r (by simp [hr])
    rw [hrec] at h1
    simp only at h1
    rw [h2, h1]
  | case6 f u m vis =>
    rw [khunAux]
    intro r _
    rfl

/-- Effect of a successful `try_khun` call: exactly one previously unmatched
right node `r` becomes matched, the multiset of matched left nodes gains
exactly `u`, and the allowed-edge discipline of `match_r` is preserved. -/
theorem khunAux_success (allowed : List (String × List String))
    (f : Nat) (u : String) (vs : List String) (m : List (String × String))
    (vis : List String) :
    (m.map Prod.fst).Nodup →
    (∀ x ∈ vs, x ∈ allowedOf allowed u) →
    (khunAux allowed f u vs m vis).1 = true →
    ∃ r, lookupAssoc m r = Option.none ∧ (r ∈ vs ∨ r ∈ rightsOf allowed) ∧
      ((khunAux allowed f u vs m vis).2.1.map Prod.fst).Perm (r :: m.map Prod.fst) ∧
      ((khunAux allowed f u vs m vis).2.1.map Prod.snd).Perm (u :: m.map Prod.snd) ∧
      ((∀ p ∈ m, p.1 ∈ allowedOf allowed p.2) →
        ∀ p ∈ (khunAux allowed f u vs m vis).2.1, p.1 ∈ allowedOf allowed p.2) := by
  induction f, u, vs, m, vis using khunAux.induct allowed with
  | case1 f u v vs m vis hv ih =>
    intro hnd hvs htrue
    rw [khunAux] at htrue ⊢
    simp only [if_pos hv] at htrue ⊢
    obtain ⟨r, h1, h2, h3, h4, h5⟩ := ih hnd (fun x hx => hvs x (by simp [hx])) htrue
    refine ⟨r, h1, ?_, h3, h4, h5⟩
    rcases h2 with h | h
    · exact Or.inl (by simp [h])
    · exact Or.inr h
  | case2 f u v vs m vis hv hl =>
    intro hnd hvs _
    rw [khunAux]
    simp only [if_neg hv, hl]
    obtain ⟨hk, hv2⟩ := setAssoc_keys_new u hl
    refine ⟨v, hl, Or.inl (by simp), ?_, ?_, ?_⟩
    · rw [hk]; exact List.perm_append_singleton v _
    · rw [hv2]; exact List.perm_append_singleton u _
    · intro hedge p hp
      rcases setAssoc_mem hp with rfl | hp'
      · exact hvs v (by simp)
      · exact hedge p hp'
  | case3 u v vs m vis hv w hl ih =>
    intro hnd hvs htrue
    rw [khunAux] at htrue ⊢
    simp only [if_neg hv, hl] at htrue ⊢
    obtain ⟨r, h1, h2, h3, h4, h5⟩ := ih hnd (fun x hx => hvs x (by simp [hx])) htrue
    refine ⟨r, h1, ?_, h3, h4, h5⟩
    rcases h2 with h | h
    · exact Or.inl (by simp [h])
    · exact Or.inr h
  | case4 u v vs m vis hv w hl k m1 vis1 hrec ih =>
    intro hnd hvs _
    rw [khunAux]
    simp only [if_neg hv, hl, hrec]
    have htrue' : (khunAux allowed k w (allowedOf allowed w) m (vis ++ [v])).1 = true := by
      rw [hrec]
    obtain ⟨r, hrnone, hrloc, hkeys, hvals, hedges⟩ := ih hnd (fun x hx => hx) htrue'
    rw [hrec] at hkeys hvals hedges
    simp only at hkeys hvals hedges
    have hm1nd : (m1.map Prod.fst).Nodup := by
      refine (hkeys.nodup_iff).mpr ?_
      exact List.nodup_cons.mpr ⟨fun hr => lookupAssoc_none_not_key hrnone hr, hnd⟩
    have hlookm1 : lookupAssoc m1 v = some w := by
      have := khunAux_visited_lookup allowed k w (allowedOf allowed w) m (vis ++ [v]) v (by simp)
      rw [hrec] at this
      simp only at this
      rw [this, hl]
    refine ⟨r, hrnone, ?_, ?_, ?_, ?_⟩
    · rcases hrloc with h | h
      · exact Or.inr (allowedOf_subset_rights allowed w r h)
      · exact Or.inr h
    · rw [setAssoc_keys_update u hlookm1]
      exact hkeys
    · have hupd := setAssoc_values_update u hm1nd hlookm1
      have hchain : (w :: (setAssoc m1 v u).map Prod.snd).Perm (w :: u :: m.map Prod.snd) := by
        refine hupd.trans ?_
        refine (List.Perm.cons u hvals).trans ?_
        exact List.Perm.swap w u _
      exact hchain.cons_inv
    · intro hedge p hp
      rcases setAssoc_mem hp with rfl | hp'
      · exact hvs v (by simp)
      · exact hedges hedge p hp'
  | case5 u v vs m vis hv w hl k m1 vis1 hrec ih1 ih2 =>
    intro hnd hvs htrue
    rw [khunAux] at htrue ⊢
    simp only [if_neg hv, hl, hrec] at htrue ⊢
    have hm1 : m1 = m := by
      have := khunAux_failure_matching allowed k w (allowedOf allowed w) m (vis ++ [v])
      rw [hrec] at this
      simpa using this
    subst hm1
    obtain ⟨r, h1, h2, h3, h4, h5⟩ := ih2 hnd (fun x hx => hvs x (by simp [hx])) htrue
    refine ⟨r, h1, ?_, h3, h4, h5⟩
    rcases h2 with h | h
    · exact Or.inl (by simp [h])
    · exact Or.inr h
  | case6 f u m vis =>
    intro _ _ htrue
    rw [khunAux] at htrue
    simp at htrue

/-! ## Counting unvisited right nodes: fuel sufficiency -/

/-- Number of right nodes of `allowed` not yet visited; the fuel budget of
the augmenting-path search never drops below this. -/
def cntUnvis (allowed : List (String × List String)) (vis : List String) : Nat :=
  (rightsOf allowed).countP (fun r => decide (r ∉ vis))

theorem cntUnvis_le_of_subset {allowed : List (String × List String)}
    {vis vis' : List String} (h : ∀ x ∈ vis, x ∈ vis') :
    cntUnvis allowed vis' ≤ cntUnvis allowed vis := by
  unfold cntUnvis
  apply List.countP_mono_left
  intro a _ ha
  simp only [decide_eq_true_eq] at ha ⊢
  exact fun hmem => ha (h a hmem)

theorem cntUnvis_pos {allowed : List (String × List String)} {vis : List String}
    {v : String} (hvr : v ∈ rightsOf allowed) (hv : v ∉ vis) :
    0 < cntUnvis allowed vis := by
  unfold cntUnvis
  rw [List.countP_pos_iff]
  exact ⟨v, hvr, by simpa using hv⟩

theorem cntUnvis_append_lt {allowed : List (String × List String)} {vis : List String}
    {v : String} (hvr : v ∈ rightsOf allowed) (hv : v ∉ vis) :
    cntUnvis allowed (vis ++ [v]) < cntUnvis allowed vis := by
  unfold cntUnvis
  have hgen : ∀ l : List String, v ∈ l →
      l.countP (fun r => decide (r ∉ vis ++ [v])) <
        l.countP (fun r => decide (r ∉ vis)) := by
    intro l
    induction l with
    | nil => intro h; simp at h
    | cons a l ih =>
      intro hal
      rw [List.countP_cons, List.countP_cons]
      have hmono : l.countP (fun r => decide (r ∉ vis ++ [v])) ≤
          l.countP (fun r => decide (r ∉ vis)) := by
        apply List.countP_mono_left
        intro x _ hx
        simp only [decide_eq_true_eq, List.mem_append, List.mem_singleton] at hx ⊢
        exact fun hm => hx (Or.inl hm)
      rcases List.mem_cons.mp hal with heq | hal'
      · have h1 : (decide (a ∉ vis ++ [v]) : Bool) = false := by
          simp [← heq]
        have h2 : (decide (a ∉ vis) : Bool) = true := by
          rw [← heq]
          simpa using hv
        rw [h1, h2]
        have e1 : (if (false = true) then (1 : Nat) else 0) = 0 := rfl
        have e2 : (if (true = true) then (1 : Nat) else 0) = 1 := rfl
        rw [e1, e2]
        omega
      · have h12 : (if (decide (a ∉ vis ++ [v]) : Bool) = true then 1 else 0) ≤
            (if (decide (a ∉ vis) : Bool) = true then 1 else 0) := by
          by_cases hc : (decide (a ∉ vis ++ [v]) : Bool) = true
          · have : (decide (a ∉ vis) : Bool) = true := by
              simp only [decide_eq_true_eq, List.mem_append, List.mem_singleton] at hc ⊢
              exact fun hm => hc (Or.inl hm)
            rw [hc, this]
          · have hc' : (decide (a ∉ vis ++ [v]) : Bool) = false := by
              simpa using hc
            rw [hc']
            have e1 : (if (false = true) then (1 : Nat) else 0) = 0 := rfl
            rw [e1]
            exact Nat.zero_le _
        have := ih hal'
        omega
  exact hgen (rightsOf allowed) hvr

theorem cntUnvis_nil (allowed : List (String × List String)) :
    cntUnvis allowed [] = (rightsOf allowed).length := by
  unfold cntUnvis
  rw [List.countP_eq_length]
  intro a _
  simp

/-- Failure analysis of `try_khun` with sufficient fuel: on failure every
remaining target of `u` ends up visited, and every newly visited right node
is matched in `m` to a left node all of whose allowed targets also end up
visited. -/
theorem khunAux_failure_closure (allowed : List (String × List String))
    (f : Nat) (u : String) (vs : List String) (m : List (String × String))
    (vis : List String) :
    cntUnvis allowed vis ≤ f →
    (∀ x ∈ vs, x ∈ rightsOf allowed) →
    (khunAux allowed f u vs m vis).1 = false →
    (∀ x ∈ vs, x ∈ (khunAux allowed f u vs m vis).2.2) ∧
    (∀ r ∈ (khunAux allowed f u vs m vis).2.2, r ∉ vis →
      ∃ w, lookupAssoc m r = some w ∧
        ∀ x ∈ allowedOf allowed w, x ∈ (khunAux allowed f u vs m vis).2.2) := by
  induction f, u, vs, m, vis using khunAux.induct allowed with
  | case1 f u v vs m vis hv ih =>
    intro hcnt hvs hfalse
    rw [khunAux] at hfalse ⊢
    simp only [if_pos hv] at hfalse ⊢
    obtain ⟨ha, hb⟩ := ih hcnt (fun x hx => hvs x (by simp [hx])) hfalse
    refine ⟨?_, hb⟩
    intro x hx
    rcases List.mem_cons.mp hx with rfl | hx'
    · obtain ⟨t, ht⟩ := khunAux_visited_mono allowed f u vs m vis
      rw [ht]
      simp [hv]
    · exact ha x hx'
  | case2 f u v vs m vis hv hl =>
    intro _ _ hfalse
    rw [khunAux] at hfalse
    simp only [if_neg hv, hl] at hfalse
    simp at hfalse
  | case3 u v vs m vis hv w hl ih =>
    intro hcnt hvs _
    exact absurd hcnt (by
      have := cntUnvis_pos (hvs v (by simp)) hv
      omega)
  | case4 u v vs m vis hv w hl k m1 vis1 hrec ih =>
    intro _ _ hfalse
    rw [khunAux] at hfalse
    simp only [if_neg hv, hl, hrec] at hfalse
    simp at hfalse
  | case5 u v vs m vis hv w hl k m1 vis1 hrec ih1 ih2 =>
    intro hcnt hvs hfalse
    rw [khunAux] at hfalse ⊢
    simp only [if_neg hv, hl, hrec] at hfalse ⊢
    have hvr : v ∈ rightsOf allowed := hvs v (by simp)
    have hcnt1 : cntUnvis allowed (vis ++ [v]) ≤ k := by
      have := cntUnvis_append_lt hvr hv
      omega
    have hm1 : m1 = m := by
      have := khunAux_failure_matching allowed k w (allowedOf allowed w) m (vis ++ [v])
      rw [hrec] at this
      simpa using this
    subst hm1
    have hfalse1 : (khunAux allowed k w (allowedOf allowed w) m1 (vis ++ [v])).1 = false := by
      rw [hrec]
    obtain ⟨ha1, hb1⟩ := ih1 hcnt1 (allowedOf_subset_rights allowed w) hfalse1
    rw [hrec] at ha1 hb1
    simp only at ha1 hb1
    have hvis1sub : ∀ x ∈ vis ++ [v], x ∈ vis1 := by
      obtain ⟨t, ht⟩ := khunAux_visited_mono allowed k w (allowedOf allowed w) m1 (vis ++ [v])
      rw [hrec] at ht
      simp only at ht
      intro x hx
      rw [ht]
      exact List.mem_append.mpr (Or.inl hx)
    have hcntv1 : cntUnvis allowed vis1 ≤ Nat.succ k := by
      have := @cntUnvis_le_of_subset allowed (vis ++ [v]) vis1 hvis1sub
      have h2 := @cntUnvis_le_of_subset allowed vis (vis ++ [v])
        (fun x (hx : x ∈ vis) => (List.mem_append.mpr (Or.inl hx) : x ∈ vis ++ [v]))
      omega
    obtain ⟨ha2, hb2⟩ := ih2 hcntv1 (fun x hx => hvs x (by simp [hx])) hfalse
    have hfinsub : ∀ x ∈ vis1, x ∈ (khunAux allowed (Nat.succ k) u vs m1 vis1).2.2 := by
      obtain ⟨t, ht⟩ := khunAux_visited_mono allowed (Nat.succ k) u vs m1 vis1
      intro x hx
      rw [ht]
      simp [hx]
    refine ⟨?_, ?_⟩
    · intro x hx
      rcases List.mem_cons.mp hx with rfl | hx'
      · exact hfinsub x (hvis1sub x (by simp))
      · exact ha2 x hx'
    · intro r hr hrvis
      by_cases hr1 : r ∈ vis1
      · by_cases hrv : r ∈ vis ++ [v]
        · -- r = v since r ∉ vis
          have hrv' : r = v := by
            rcases List.mem_append.mp hrv with h | h
            · exact absurd h hrvis
            · simpa using h
          subst hrv'
          exact ⟨w, hl, fun x hx => hfinsub x (ha1 x hx)⟩
        · obtain ⟨w', hw'1, hw'2⟩ := hb1 r hr1 hrv
          exact ⟨w', hw'1, fun x hx => hfinsub x (hw'2 x hx)⟩
      · exact hb2 r hr hr1
  | case6 f u m vis =>
    intro _ _ _
    rw [khunAux]
    refine ⟨by simp, ?_⟩
    intro r hr hrvis
    simp only at hr
    exact absurd hr hrvis

/-- Fuel stability: with fuel at least the number of unvisited right nodes,
one more unit of fuel never changes the result of the search — the
fuel-exhaustion branch is unreachable, i.e. the Python recursion terminates
within that depth. -/
theorem khunAux_fuel_stable (allowed : List (String × List String)) :
    ∀ (f : Nat) (vs : List String) (u : String) (m : List (String × String))
      (vis : List String),
    (∀ x ∈ vs, x ∈ rightsOf allowed) →
    cntUnvis allowed vis ≤ f →
    khunAux allowed (f + 1) u vs m vis = khunAux allowed f u vs m vis := by
  intro f
  induction f using Nat.strong_induction_on with
  | _ f ihf =>
    intro vs
    induction vs with
    | nil =>
      intro u m vis _ _
      rw [khunAux, khunAux]
    | cons v vs ihvs =>
      intro u m vis hvs hcnt
      by_cases hv : v ∈ vis
      · rw [khunAux, khunAux]
        simp only [if_pos hv]
        exact ihvs u m vis (fun x hx => hvs x (by simp [hx])) hcnt
      · cases hl : lookupAssoc m v with
        | none =>
          rw [khunAux, khunAux]
          simp only [if_neg hv, hl]
        | some w =>
          have hvr : v ∈ rightsOf allowed := hvs v (by simp)
          have hpos : 0 < cntUnvis allowed vis := cntUnvis_pos hvr hv
          obtain ⟨f', rfl⟩ : ∃ f', f = f' + 1 := ⟨f - 1, by omega⟩
          rw [khunAux, khunAux]
          simp only [if_neg hv, hl]
          have hcnt1 : cntUnvis allowed (vis ++ [v]) ≤ f' := by
            have := cntUnvis_append_lt hvr hv
            omega
          have hinner : khunAux allowed (f' + 1) w (allowedOf allowed w) m (vis ++ [v]) =
              khunAux allowed f' w (allowedOf allowed w) m (vis ++ [v]) :=
            ihf f' (by omega) (allowedOf allowed w)  w m (vis ++ [v])
              (allowedOf_subset_rights allowed w) hcnt1
          rw [hinner]
          cases hres : khunAux allowed f' w (allowedOf allowed w) m (vis ++ [v]) with
          | mk ok rest =>
            obtain ⟨m1, vis1⟩ := rest
            cases ok with
            | true => rfl
            | false =>
              simp only
              have hvis1sub : ∀ x ∈ vis, x ∈ vis1 := by
                obtain ⟨t, ht⟩ := khunAux_visited_mono allowed f' w (allowedOf allowed w) m (vis ++ [v])
                rw [hres] at ht
                simp only at ht
                intro x hx
                rw [ht]
                simp [hx]
              have hcntv1 : cntUnvis allowed vis1 ≤ f' + 1 := by
                have h1 : ∀ x ∈ vis ++ [v], x ∈ vis1 := by
                  obtain ⟨t, ht⟩ := khunAux_visited_mono allowed f' w (allowedOf allowed w) m (vis ++ [v])
                  rw [hres] at ht
                  simp only at ht
                  intro x hx
                  rw [ht]
                  exact List.mem_append.mpr (Or.inl hx)
                have := @cntUnvis_le_of_subset allowed (vis ++ [v]) vis1 h1
                omega
              exact ihvs u m1 vis1 (fun x hx => hvs x (by simp [hx])) hcntv1

/-! ## Bridge lemmas: randomized phase, allowed-targets map -/

theorem tryRandomAux_some {people : List String}
    {exclusions : List (String × Finset String)} {ban_self : Bool}
    {rng : Nat → List String} :
    ∀ {n : Nat} {m : List (String × String)},
    tryRandomAux people exclusions ban_self rng n = some m →
    ∃ k, permOk people exclusions ban_self (rng k) = true ∧ m = people.zip (rng k) := by
  intro n
  induction n with
  | zero => intro m h; simp [tryRandomAux] at h
  | succ k ih =>
    intro m h
    rw [tryRandomAux] at h
    by_cases hok : permOk people exclusions ban_self (rng k) = true
    · simp only [hok, if_pos, if_true] at h
      exact ⟨k, hok, by simpa using h.symm⟩
    · simp only [hok, if_neg, if_false] at h
      exact ih h

theorem permOk_mem {people : List String} {exclusions : List (String × Finset String)}
    {ban_self : Bool} {targets : List String}
    (h : permOk people exclusions ban_self targets = true) :
    ∀ p ∈ people.zip targets, pairOk exclusions ban_self p.1 p.2 = true := by
  intro p hp
  unfold permOk at h
  exact List.all_eq_true.mp h p hp

theorem beq_symm_str (a b : String) : (a == b) = (b == a) := by
  by_cases hab : a = b
  · subst hab; rfl
  · have h1 : (a == b) = false := beq_eq_false_iff_ne.mpr hab
    have h2 : (b == a) = false := beq_eq_false_iff_ne.mpr (Ne.symm hab)
    rw [h1, h2]

theorem buildAllowed_pred_eq (exclusions : List (String × Finset String))
    (ban_self : Bool) (p t : String) :
    ((!ban_self || !(t == p)) && !(exclMem exclusions p t)) =
      pairOk exclusions ban_self p t := by
  unfold pairOk
  rw [beq_symm_str t p]
  cases ban_self <;> cases hpt : (p == t) <;> simp

theorem allowedOf_map_self {l : List String} {F : String → List String} {p : String}
    (hp : p ∈ l) :
    allowedOf (l.map fun q => (q, F q)) p = F p := by
  induction l with
  | nil => simp at hp
  | cons q l ih =>
    unfold allowedOf
    simp only [List.map_cons, List.find?_cons]
    by_cases hq : (q == p) = true
    · have : q = p := by simpa using hq
      subst this
      simp
    · have hqf : (q == p) = false := by simpa using hq
      rw [hqf]
      have hp' : p ∈ l := by
        rcases List.mem_cons.mp hp with heq | h
        · exact absurd (by simp [heq]) hq
        · exact h
      have := ih hp'
      unfold allowedOf at this
      exact this

theorem mem_allowedOf_buildAllowed {people : List String}
    {exclusions : List (String × Finset String)} {ban_self : Bool} {q x : String}
    (h : x ∈ allowedOf (buildAllowed people exclusions ban_self) q) :
    x ∈ people ∧ pairOk exclusions ban_self q x = true := by
  unfold allowedOf at h
  cases hfind : (buildAllowed people exclusions ban_self).find? (fun p => p.1 == q) with
  | none => rw [hfind] at h; simp at h
  | some pr =>
    rw [hfind] at h
    have h2 : x ∈ pr.2 := h
    have hmem : pr ∈ buildAllowed people exclusions ban_self :=
      List.mem_of_find?_eq_some hfind
    have hkey : (pr.1 == q) = true := by simpa using List.find?_some hfind
    have hkey' : pr.1 = q := by simpa using hkey
    unfold buildAllowed at hmem
    obtain ⟨y, hy, hypr⟩ := List.mem_map.mp hmem
    have hy1 : y = pr.1 := by rw [← hypr]
    have hpr2 : pr.2 = people.filter
        (fun t => (!ban_self || !(t == y)) && !(exclMem exclusions y t)) := by
      rw [← hypr]
    rw [hpr2] at h2
    constructor
    · exact List.mem_of_mem_filter h2
    · have := List.of_mem_filter h2
      rw [buildAllowed_pred_eq] at this
      rw [← hkey', ← hy1]
      exact this

theorem mem_allowedOf_buildAllowed_of {people : List String}
    {exclusions : List (String × Finset String)} {ban_self : Bool} {q x : String}
    (hq : q ∈ people) (hx : x ∈ people)
    (hok : pairOk exclusions ban_self q x = true) :
    x ∈ allowedOf (buildAllowed people exclusions ban_self) q := by
  unfold buildAllowed
  rw [allowedOf_map_self hq]
  apply List.mem_filter.mpr
  refine ⟨hx, ?_⟩
  rw [buildAllowed_pred_eq]
  exact hok

theorem rightsOf_buildAllowed_subset (people : List String)
    (exclusions : List (String × Finset String)) (ban_self : Bool) :
    ∀ x ∈ rightsOf (buildAllowed people exclusions ban_self), x ∈ people := by
  intro x hx
  unfold rightsOf at hx
  rw [List.mem_dedup] at hx
  obtain ⟨l, hl, hxl⟩ := List.mem_flatten.mp hx
  obtain ⟨p, hp, hpl⟩ := List.mem_map.mp hl
  unfold buildAllowed at hp
  obtain ⟨q, hq, hqp⟩ := List.mem_map.mp hp
  rw [← hqp] at hpl
  simp only at hpl
  rw [← hpl] at hxl
  exact List.mem_of_mem_filter hxl

theorem snd_nodup_inj {Z : List (String × String)} (hnd : (Z.map Prod.snd).Nodup) :
    ∀ {x y t : String}, (x, t) ∈ Z → (y, t) ∈ Z → x = y := by
  induction Z with
  | nil => intro x y t hx; simp at hx
  | cons q Z ih =>
    intro x y t hx hy
    rw [List.map_cons] at hnd
    have hnd' := List.nodup_cons.mp hnd
    rcases List.mem_cons.mp hx with rfl | hx'
    · rcases List.mem_cons.mp hy with heq | hy'
      · have : x = y := by
          have := congrArg Prod.fst heq
          simpa using this.symm
        exact this.symm ▸ rfl
      · exact absurd (List.mem_map_of_mem Prod.snd hy') (by simpa using hnd'.1)
    · rcases List.mem_cons.mp hy with rfl | hy'
      · exact absurd (List.mem_map_of_mem Prod.snd hx') (by simpa using hnd'.1)
      · exact ih hnd'.2 hx' hy'

theorem zip_lookup {people targets : List String} :
    people.Nodup → people.length = targets.length →
    ∀ p ∈ people, ∃ t, lookupAssoc (people.zip targets) p = some t ∧
      (p, t) ∈ people.zip targets := by
  induction people generalizing targets with
  | nil => intro _ _ p hp; simp at hp
  | cons q ps ih =>
    intro hnd hlen p hp
    cases targets with
    | nil => simp at hlen
    | cons s ts =>
      rw [List.zip_cons_cons]
      by_cases hq : q = p
      · subst hq
        refine ⟨s, ?_, by simp⟩
        rw [lookupAssoc_cons]
        simp
      · have hp' : p ∈ ps := by
          rcases List.mem_cons.mp hp with heq | h
          · exact absurd heq.symm hq
          · exact h
        obtain ⟨t, ht1, ht2⟩ := ih (List.nodup_cons.mp hnd).2 (by simpa using hlen) p hp'
        refine ⟨t, ?_, by simp [ht2]⟩
        rw [lookupAssoc_cons]
        rw [if_neg (by simpa using hq)]
        exact ht1

/-- **C9.** The exact matching phase terminates on every input: each
recursive call marks a previously unvisited right node before recursing, so
the search needs recursion depth (fuel) at most the number of distinct right
nodes — giving it any more fuel never changes its result — and for the
allowed-targets map built by `create_mapping` that number is at most the
number of participants. -/
theorem claim_C9 :
    (∀ (allowed : List (String × List String)) (g : Nat) (u : String)
        (m : List (String × String)),
      khunAux allowed ((rightsOf allowed).length + g) u (allowedOf allowed u) m [] =
        try_khun allowed u m []) ∧
    (∀ (people : List String) (exclusions : List (String × Finset String)) (b : Bool),
      (rightsOf (buildAllowed people exclusions b)).length ≤ people.length) := by
  constructor
  · intro allowed g u m
    induction g with
    | zero => rfl
    | succ g ih =>
      have hstable := khunAux_fuel_stable allowed ((rightsOf allowed).length + g)
        (allowedOf allowed u) u m []
        (allowedOf_subset_rights allowed u)
        (by rw [cntUnvis_nil]; omega)
      have hshift : (rightsOf allowed).length + (g + 1) =
          ((rightsOf allowed).length + g) + 1 := rfl
      rw [hshift, hstable, ih]
  · intro people exclusions b
    have hnd : (rightsOf (buildAllowed people exclusions b)).Nodup := List.nodup_dedup _
    have hsub : rightsOf (buildAllowed people exclusions b) ⊆ people :=
      fun x hx => rightsOf_buildAllowed_subset people exclusions b x hx
    exact (hnd.subperm hsub).length_le

/-! ## Soundness of the matching driver -/

theorem matchLoop_sound (allowed : List (String × List String)) :
    ∀ (rest : List String) (m matchR : List (String × String)),
    matchLoop allowed rest m = some matchR →
    (m.map Prod.fst).Nodup →
    (∀ x ∈ m.map Prod.fst, x ∈ rightsOf allowed) →
    (∀ p ∈ m, p.1 ∈ allowedOf allowed p.2) →
    (matchR.map Prod.fst).Nodup ∧
    (∀ x ∈ matchR.map Prod.fst, x ∈ rightsOf allowed) ∧
    (matchR.map Prod.snd).Perm (rest ++ m.map Prod.snd) ∧
    (∀ p ∈ matchR, p.1 ∈ allowedOf allowed p.2) := by
  intro rest
  induction rest with
  | nil =>
    intro m matchR h hnd hsub hedge
    rw [matchLoop] at h
    simp only [Option.some.injEq] at h
    subst h
    exact ⟨hnd, hsub, by simp, hedge⟩
  | cons u rest ih =>
    intro m matchR h hnd hsub hedge
    rw [matchLoop] at h
    cases htk : try_khun allowed u m [] with
    | mk ok pr =>
      obtain ⟨m', vis'⟩ := pr
      rw [htk] at h
      cases ok with
      | false => simp at h
      | true =>
        simp only at h
        unfold try_khun at htk
        have htrue : (khunAux allowed (rightsOf allowed).length u
            (allowedOf allowed u) m []).1 = true := by rw [htk]
        obtain ⟨r, hrnone, hrloc, hkeys, hvals, hedges⟩ :=
          khunAux_success allowed (rightsOf allowed).length u
            (allowedOf allowed u) m [] hnd (fun x hx => hx) htrue
        rw [htk] at hkeys hvals hedges
        simp only at hkeys hvals hedges
        have hrrights : r ∈ rightsOf allowed := by
          rcases hrloc with hr | hr
          · exact allowedOf_subset_rights allowed u r hr
          · exact hr
        have hnd' : (m'.map Prod.fst).Nodup := by
          refine (hkeys.nodup_iff).mpr ?_
          exact List.nodup_cons.mpr ⟨fun hr => lookupAssoc_none_not_key hrnone hr, hnd⟩
        have hsub' : ∀ x ∈ m'.map Prod.fst, x ∈ rightsOf allowed := by
          intro x hx
          have := hkeys.mem_iff.mp hx
          rcases List.mem_cons.mp this with rfl | hx'
          · exact hrrights
          · exact hsub x hx'
        obtain ⟨c1, c2, c3, c4⟩ := ih m' matchR h hnd' hsub' (hedges hedge)
        refine ⟨c1, c2, ?_, c4⟩
        refine c3.trans ?_
        refine (List.Perm.append_left rest hvals).trans ?_
        exact List.perm_middle

/-- Dissection of a successful `create_mapping` run into its two phases. -/
theorem create_mapping_ok_cases {participants : List Entry} {ban_self : Bool}
    {rng : Nat → List String} {people : List String}
    {exclusions : List (String × Finset String)} {mp : List (String × String)}
    (hnorm : _normalize_participants participants = .ok (people, exclusions))
    (h : create_mapping participants ban_self rng = .ok mp) :
    (∃ k, permOk people exclusions ban_self (rng k) = true ∧
      mp = people.zip (rng k)) ∨
    (∃ matchR, matchLoop (buildAllowed people exclusions ban_self) people [] =
        some matchR ∧ mp = matchR.map (fun rl => (rl.2, rl.1)) ∧ mp ≠ []) := by
  unfold create_mapping at h
  rw [hnorm] at h
  simp only at h
  cases hrand : _try_random_permutation_exclusions people exclusions ban_self rng with
  | some rand =>
    rw [hrand] at h
    simp only [Except.ok.injEq] at h
    subst h
    left
    obtain ⟨k, hk1, hk2⟩ := tryRandomAux_some hrand
    exact ⟨k, hk1, hk2⟩
  | none =>
    rw [hrand] at h
    simp only at h
    by_cases hemp : (_maximum_bipartite_matching people
        (buildAllowed people exclusions ban_self)).isEmpty
    · rw [if_pos hemp] at h
      simp at h
    · rw [if_neg hemp] at h
      simp only [Except.ok.injEq] at h
      right
      unfold _maximum_bipartite_matching at h hemp
      cases hml : matchLoop (buildAllowed people exclusions ban_self) people [] with
      | none =>
        rw [hml] at hemp
        simp at hemp
      | some matchR =>
        rw [hml] at h hemp
        simp only at h hemp
        refine ⟨matchR, rfl, h.symm, ?_⟩
        rw [← h]
        simpa using hemp

/-- **C1.** Every mapping returned by `create_mapping` is a permutation of the
participant names: the keys are a permutation of the names and so are the
values — whether the mapping came from the randomized phase or from the
bipartite-matching phase. -/
theorem claim_C1 (participants : List Entry) (ban_self : Bool)
    (rng : Nat → List String) (people : List String)
    (exclusions : List (String × Finset String)) (mp : List (String × String))
    (hnorm : _normalize_participants participants = .ok (people, exclusions))
    (hrng : ∀ k, (rng k).Perm people)
    (h : create_mapping participants ban_self rng = .ok mp) :
    (mp.map Prod.fst).Perm people ∧ (mp.map Prod.snd).Perm people := by
  rcases create_mapping_ok_cases hnorm h with ⟨k, hok, hmp⟩ | ⟨matchR, hml, hmp, hne⟩
  · subst hmp
    have hlen : people.length = (rng k).length := (hrng k).length_eq.symm
    constructor
    · rw [List.map_fst_zip people (rng k) (le_of_eq hlen)]
    · rw [List.map_snd_zip people (rng k) (le_of_eq hlen.symm)]
      exact hrng k
  · obtain ⟨c1, c2, c3, c4⟩ := matchLoop_sound _ people [] matchR hml
      (by simp) (by simp) (by simp)
    subst hmp
    have hfst : ((matchR.map fun rl => (rl.2, rl.1)).map Prod.fst) =
        matchR.map Prod.snd := by
      rw [List.map_map]
      rfl
    have hsnd : ((matchR.map fun rl => (rl.2, rl.1)).map Prod.snd) =
        matchR.map Prod.fst := by
      rw [List.map_map]
      rfl
    constructor
    · rw [hfst]
      simpa using c3
    · rw [hsnd]
      have hsubp : matchR.map Prod.fst ⊆ people := fun x hx =>
        rightsOf_buildAllowed_subset people exclusions ban_self x (c2 x hx)
      have hsp : (matchR.map Prod.fst).Subperm people := c1.subperm hsubp
      apply hsp.perm_of_length_le
      have hlen1 : (matchR.map Prod.snd).length = people.length := by
        have := c3.length_eq
        simpa using this
      have hlen2 : (matchR.map Prod.fst).length = (matchR.map Prod.snd).length := by
        simp
      omega

theorem claim_C1_witness :
    (([(("P" : String), ("L" : String)), ("L", "S"), ("S", "P")].map Prod.fst).Perm
      ["P", "L", "S"]) ∧
    (([(("P" : String), ("L" : String)), ("L", "S"), ("S", "P")].map Prod.snd).Perm
      ["P", "L", "S"]) :=
  claim_C1 [Entry.str "P", Entry.str "L", Entry.str "S"] true
    (fun _ => ["L", "S", "P"]) ["P", "L", "S"] [("P", ∅), ("L", ∅), ("S", ∅)]
    [("P", "L"), ("L", "S"), ("S", "P")] rfl
    (fun _ => (by decide : (["L", "S", "P"] : List String).Perm ["P", "L", "S"])) rfl

/-- **C2.** Every mapping returned by `create_mapping` honors the
constraints: with `ban_self=true` no name maps to itself, and no name maps
into its normalized exclusion set — in both the randomized and the matching
phase, which share the same constraint predicate. -/
theorem claim_C2 (participants : List Entry) (ban_self : Bool)
    (rng : Nat → List String) (people : List String)
    (exclusions : List (String × Finset String)) (mp : List (String × String))
    (hnorm : _normalize_participants participants = .ok (people, exclusions))
    (h : create_mapping participants ban_self rng = .ok mp) :
    ∀ p ∈ mp, (ban_self = true → p.1 ≠ p.2) ∧
      ∀ s, lookupAssoc exclusions p.1 = some s → p.2 ∉ s := by
  have hpair : ∀ p ∈ mp, pairOk exclusions ban_self p.1 p.2 = true := by
    rcases create_mapping_ok_cases hnorm h with ⟨k, hok, hmp⟩ | ⟨matchR, hml, hmp, hne⟩
    · subst hmp
      exact permOk_mem hok
    · obtain ⟨c1, c2, c3, c4⟩ := matchLoop_sound _ people [] matchR hml
        (by simp) (by simp) (by simp)
      subst hmp
      intro p hp
      obtain ⟨rl, hrl, hrlp⟩ := List.mem_map.mp hp
      have hedge := c4 rl hrl
      have hmem := mem_allowedOf_buildAllowed hedge
      rw [← hrlp]
      exact hmem.2
  intro p hp
  have hpk := hpair p hp
  unfold pairOk at hpk
  rw [Bool.and_eq_true] at hpk
  obtain ⟨h1, h2⟩ := hpk
  constructor
  · intro hb heq
    rw [hb] at h1
    rw [heq] at h1
    simp at h1
  · intro s hs hmem
    rw [Bool.not_eq_true'] at h2
    unfold exclMem at h2
    rw [hs] at h2
    simp at h2
    exact h2 hmem

theorem claim_C2_witness :
    ((true = true → ("A" : String) ≠ "C") ∧
      ∀ s, lookupAssoc [("A", ({"B"} : Finset String)), ("B", ∅), ("C", ∅)] "A" =
        some s → ("C" : String) ∉ s) :=
  claim_C2
    [Entry.dict (some (PyVal.str "A")) (some (PyVal.list [PyVal.str "B"])),
     Entry.str "B", Entry.str "C"]
    true (fun _ => ["C", "A", "B"]) ["A", "B", "C"]
    [("A", {"B"}), ("B", ∅), ("C", ∅)]
    [("A", "C"), ("B", "A"), ("C", "B")] rfl rfl ("A", "C") (by decide)

/-! ## Claim C4: deterministic failure of the mutually-excluding pair -/

theorem perm_pair {l : List String} {a b : String} (h : l.Perm [a, b]) :
    l = [a, b] ∨ l = [b, a] := by
  have hlen : l.length = 2 := by simpa using h.length_eq
  cases l with
  | nil => simp at hlen
  | cons x l' =>
    cases l' with
    | nil => simp at hlen
    | cons y l'' =>
      cases l'' with
      | cons z l3 => simp at hlen
      | nil =>
        have hx : x ∈ [a, b] := h.mem_iff.mp (by simp)
        rcases (by simpa using hx : x = a ∨ x = b) with heq | heq
        · left
          have h2 : [y].Perm [b] := by
            rw [heq] at h
            exact h.cons_inv
          rw [heq, show y = b from by simpa using List.perm_singleton.mp h2]
        · right
          have hswap : ([a, b] : List String).Perm [b, a] := List.Perm.swap b a []
          have h2 : [y].Perm [a] := by
            have h3 := h.trans hswap
            rw [heq] at h3
            exact h3.cons_inv
          rw [heq, show y = a from by simpa using List.perm_singleton.mp h2]

theorem tryRandomAux_pair_none {a b : String} {excl : List (String × Finset String)}
    {rng : Nat → List String}
    (hexa : exclMem excl a b = true)
    (hrng : ∀ k, (rng k).Perm [a, b]) :
    ∀ n, tryRandomAux [a, b] excl true rng n = Option.none := by
  intro n
  induction n with
  | zero => rfl
  | succ k ih =>
    rw [tryRandomAux]
    have hfail : permOk [a, b] excl true (rng k) = false := by
      rcases perm_pair (hrng k) with h | h
      · rw [h]
        unfold permOk
        rw [List.zip_cons_cons, List.all_cons]
        have hp : pairOk excl true a a = false := by
          unfold pairOk
          simp
        rw [hp]
        rfl
      · rw [h]
        unfold permOk
        rw [List.zip_cons_cons, List.all_cons]
        have hp : pairOk excl true a b = false := by
          unfold pairOk
          rw [hexa]
          simp
        rw [hp]
        rfl
    rw [if_neg (by simp [hfail])]
    exact ih

/-- **C4.** A two-participant instance in which the participants mutually
exclude each other, with `ban_self=true`, always raises
`UnsatisfiableError`, regardless of the behavior of the randomness source:
every shuffle of the pair violates a constraint, and the exact matching
phase finds an empty allowed-target list. -/
theorem claim_C4 (participants : List Entry) (a b : String)
    (excl : List (String × Finset String)) (rng : Nat → List String)
    (hnorm : _normalize_participants participants = .ok ([a, b], excl))
    (hexa : exclMem excl a b = true)
    (_hexb : exclMem excl b a = true)
    (hrng : ∀ k, (rng k).Perm [a, b]) :
    create_mapping participants true rng =
      .error "No valid mapping exists for given participants and constraints" := by
  unfold create_mapping
  rw [hnorm]
  simp only
  have hrand : _try_random_permutation_exclusions [a, b] excl true rng = Option.none :=
    tryRandomAux_pair_none hexa hrng 2000
  rw [hrand]
  have hallowed : allowedOf (buildAllowed [a, b] excl true) a = [] := by
    unfold buildAllowed
    rw [allowedOf_map_self (by simp : a ∈ [a, b])]
    have h1 : ((!true || !(a == a)) && !(exclMem excl a a)) = false := by simp
    have h2 : ((!true || !(b == a)) && !(exclMem excl a b)) = false := by
      rw [hexa]
      simp
    simp only [List.filter_cons, h1, h2, Bool.false_eq_true, if_false, List.filter_nil,
      if_neg]
  have htk : try_khun (buildAllowed [a, b] excl true) a [] [] = (false, [], []) := by
    unfold try_khun
    rw [hallowed, khunAux]
  have hml : matchLoop (buildAllowed [a, b] excl true) [a, b] [] = Option.none := by
    rw [matchLoop, htk]
  have hmax : _maximum_bipartite_matching [a, b] (buildAllowed [a, b] excl true) = [] := by
    unfold _maximum_bipartite_matching
    rw [hml]
  simp only [hmax]
  rfl

theorem claim_C4_witness :
    create_mapping
      [Entry.dict (some (PyVal.str "Jordan")) (some (PyVal.list [PyVal.str "Taylor"])),
       Entry.dict (some (PyVal.str "Taylor")) (some (PyVal.list [PyVal.str "Jordan"]))]
      true (fun _ => ["Jordan", "Taylor"]) =
      .error "No valid mapping exists for given participants and constraints" :=
  claim_C4 _ "Jordan" "Taylor" [("Jordan", {"Taylor"}), ("Taylor", {"Jordan"})]
    (fun _ => ["Jordan", "Taylor"]) rfl (by decide) (by decide)
    (fun _ => (by decide : (["Jordan", "Taylor"] : List String).Perm ["Jordan", "Taylor"]))

/-! ## Completeness of the matching phase (claim C3) -/

/-- If a valid full assignment exists (a permutation `targets` passing the
constraint check), then no step of the matching driver can fail: a failing
augmenting-path search would exhibit a set of left nodes with fewer allowed
targets than members, contradicting the existence of the assignment. -/
theorem khun_step_complete
    {people targets : List String} {exclusions : List (String × Finset String)}
    {ban_self : Bool} {m : List (String × String)} {u : String}
    {pre rest : List String}
    (hndp : people.Nodup)
    (hperm : targets.Perm people)
    (hok : permOk people exclusions ban_self targets = true)
    (hsplit : people = pre ++ u :: rest)
    (hvals : (m.map Prod.snd).Perm pre)
    (hfail : (try_khun (buildAllowed people exclusions ban_self) u m []).1 = false) :
    False := by
  have hclos := khunAux_failure_closure (buildAllowed people exclusions ban_self)
    (rightsOf (buildAllowed people exclusions ban_self)).length u
    (allowedOf (buildAllowed people exclusions ban_self) u) m []
    (le_of_eq (cntUnvis_nil (buildAllowed people exclusions ban_self)))
    (allowedOf_subset_rights (buildAllowed people exclusions ban_self) u) hfail
  obtain ⟨hA, hB⟩ := hclos
  set V := (khunAux (buildAllowed people exclusions ban_self)
    (rightsOf (buildAllowed people exclusions ban_self)).length u
    (allowedOf (buildAllowed people exclusions ban_self) u) m []).2.2 with hVdef
  -- facts about the partial matching m
  have hndapp := hsplit ▸ hndp
  rw [List.nodup_append] at hndapp
  have hprend : pre.Nodup := hndapp.1
  have hvnd : (m.map Prod.snd).Nodup := (hvals.nodup_iff).mpr hprend
  have hupre : u ∉ pre := fun hu => hndapp.2.2 hu (by simp)
  have huvm : u ∉ m.map Prod.snd := fun hu => hupre (hvals.mem_iff.mp hu)
  have hvmpeople : ∀ x ∈ m.map Prod.snd, x ∈ people := by
    intro x hx
    rw [hsplit]
    exact List.mem_append.mpr (Or.inl (hvals.mem_iff.mp hx))
  have hupeople : u ∈ people := by rw [hsplit]; simp
  -- facts about the valid assignment
  have hlen : people.length = targets.length := hperm.length_eq.symm
  have htnd : targets.Nodup := (hperm.nodup_iff).mpr hndp
  have hZnd : ((people.zip targets).map Prod.snd).Nodup := by
    rw [List.map_snd_zip people targets (le_of_eq hlen.symm)]
    exact htnd
  have hσsome : ∀ p ∈ people,
      lookupAssoc (people.zip targets) p =
        some ((lookupAssoc (people.zip targets) p).getD "") ∧
      (lookupAssoc (people.zip targets) p).getD "" ∈
        allowedOf (buildAllowed people exclusions ban_self) p := by
    intro p hp
    obtain ⟨t, ht1, ht2⟩ := zip_lookup hndp hlen p hp
    have hgd : (lookupAssoc (people.zip targets) p).getD "" = t := by
      rw [ht1]
      rfl
    rw [hgd, ht1]
    refine ⟨rfl, ?_⟩
    have hokp : pairOk exclusions ban_self p t = true := permOk_mem hok (p, t) ht2
    have htt : t ∈ targets := (List.of_mem_zip ht2).2
    exact mem_allowedOf_buildAllowed_of hp (hperm.mem_iff.mp htt) hokp
  have hσinj : ∀ p1 ∈ people, ∀ p2 ∈ people,
      (lookupAssoc (people.zip targets) p1).getD "" =
        (lookupAssoc (people.zip targets) p2).getD "" → p1 = p2 := by
    intro p1 hp1 p2 hp2 he
    obtain ⟨h11, _⟩ := hσsome p1 hp1
    obtain ⟨h21, _⟩ := hσsome p2 hp2
    rw [he] at h11
    exact snd_nodup_inj hZnd (lookupAssoc_mem h11) (lookupAssoc_mem h21)
  -- facts about the matched left partners of visited right nodes
  have hmwsome : ∀ r ∈ V, lookupAssoc m r = some ((lookupAssoc m r).getD "") ∧
      ∀ x ∈ allowedOf (buildAllowed people exclusions ban_self)
        ((lookupAssoc m r).getD ""), x ∈ V := by
    intro r hr
    obtain ⟨w, hw1, hw2⟩ := hB r hr (by simp)
    have hgd : (lookupAssoc m r).getD "" = w := by
      rw [hw1]
      rfl
    rw [hgd, hw1]
    exact ⟨rfl, hw2⟩
  -- the pigeonhole
  have himagecard : (V.toFinset.image (fun r => (lookupAssoc m r).getD "")).card =
      V.toFinset.card := by
    apply Finset.card_image_of_injOn
    intro r1 hr1 r2 hr2 he
    simp only at he
    obtain ⟨h11, _⟩ := hmwsome r1 (List.mem_toFinset.mp (Finset.mem_coe.mp hr1))
    obtain ⟨h21, _⟩ := hmwsome r2 (List.mem_toFinset.mp (Finset.mem_coe.mp hr2))
    rw [he] at h11
    exact snd_nodup_inj hvnd (lookupAssoc_mem h11) (lookupAssoc_mem h21)
  have humem : u ∉ V.toFinset.image (fun r => (lookupAssoc m r).getD "") := by
    intro hu
    obtain ⟨r, hr, hre⟩ := Finset.mem_image.mp hu
    obtain ⟨h1, _⟩ := hmwsome r (List.mem_toFinset.mp hr)
    rw [hre] at h1
    exact huvm (List.mem_map.mpr ⟨(r, u), lookupAssoc_mem h1, rfl⟩)
  have hLcard : (insert u (V.toFinset.image (fun r => (lookupAssoc m r).getD ""))).card =
      V.toFinset.card + 1 := by
    rw [Finset.card_insert_of_not_mem humem, himagecard]
  have hLpeople : ∀ x ∈ insert u (V.toFinset.image (fun r => (lookupAssoc m r).getD "")),
      x ∈ people := by
    intro x hx
    rcases Finset.mem_insert.mp hx with heq | hx'
    · rw [heq]; exact hupeople
    · obtain ⟨r, hr, hre⟩ := Finset.mem_image.mp hx'
      obtain ⟨h1, _⟩ := hmwsome r (List.mem_toFinset.mp hr)
      refine hvmpeople x ?_
      rw [← hre]
      exact List.mem_map.mpr ⟨(r, (lookupAssoc m r).getD ""), lookupAssoc_mem h1, rfl⟩
  have hLmaps : ∀ x ∈ insert u (V.toFinset.image (fun r => (lookupAssoc m r).getD "")),
      (lookupAssoc (people.zip targets) x).getD "" ∈ V.toFinset := by
    intro x hx
    rcases Finset.mem_insert.mp hx with heq | hx'
    · obtain ⟨_, h2⟩ := hσsome x (by rw [heq]; exact hupeople)
      rw [heq] at h2 ⊢
      rw [List.mem_toFinset]
      exact hA _ h2
    · obtain ⟨r, hr, hre⟩ := Finset.mem_image.mp hx'
      obtain ⟨h1, hsub⟩ := hmwsome r (List.mem_toFinset.mp hr)
      have hxp : x ∈ people := hLpeople x hx
      obtain ⟨_, h2⟩ := hσsome x hxp
      rw [List.mem_toFinset]
      apply hsub
      rw [hre]
      exact h2
  have himg : (insert u (V.toFinset.image (fun r => (lookupAssoc m r).getD ""))).image
      (fun p => (lookupAssoc (people.zip targets) p).getD "") ⊆ V.toFinset := by
    intro y hy
    obtain ⟨x, hx, hxe⟩ := Finset.mem_image.mp hy
    rw [← hxe]
    exact hLmaps x hx
  have hinj : Set.InjOn (fun p => (lookupAssoc (people.zip targets) p).getD "")
      ↑(insert u (V.toFinset.image (fun r => (lookupAssoc m r).getD ""))) := by
    intro x hx y hy he
    simp only at he
    exact hσinj x (hLpeople x (Finset.mem_coe.mp hx)) y (hLpeople y (Finset.mem_coe.mp hy)) he
  have hcard1 := Finset.card_image_of_injOn hinj
  have hcard2 := Finset.card_le_card himg
  omega

theorem matchLoop_complete
    {people targets : List String} {exclusions : List (String × Finset String)}
    {ban_self : Bool}
    (hndp : people.Nodup) (hperm : targets.Perm people)
    (hok : permOk people exclusions ban_self targets = true) :
    ∀ (rest pre : List String) (m : List (String × String)),
    people = pre ++ rest →
    (m.map Prod.snd).Perm pre →
    (m.map Prod.fst).Nodup →
    matchLoop (buildAllowed people exclusions ban_self) rest m ≠ Option.none := by
  intro rest
  induction rest with
  | nil =>
    intro pre m _ _ _
    rw [matchLoop]
    simp
  | cons u rest ih =>
    intro pre m hsplit hvals hndk
    rw [matchLoop]
    cases htk : try_khun (buildAllowed people exclusions ban_self) u m [] with
    | mk ok pr =>
      obtain ⟨m', vis'⟩ := pr
      cases ok with
      | false =>
        exfalso
        exact khun_step_complete hndp hperm hok hsplit hvals (by rw [htk])
      | true =>
        show matchLoop (buildAllowed people exclusions ban_self) rest m' ≠ Option.none
        unfold try_khun at htk
        have htrue : (khunAux (buildAllowed people exclusions ban_self)
            (rightsOf (buildAllowed people exclusions ban_self)).length u
            (allowedOf (buildAllowed people exclusions ban_self) u) m []).1 = true := by
          rw [htk]
        obtain ⟨r, hrnone, hrloc, hkeys, hvalsS, hedges⟩ :=
          khunAux_success (buildAllowed people exclusions ban_self)
            (rightsOf (buildAllowed people exclusions ban_self)).length u
            (allowedOf (buildAllowed people exclusions ban_self) u) m []
            hndk (fun x hx => hx) htrue
        rw [htk] at hkeys hvalsS
        simp only at hkeys hvalsS
        exact ih (pre ++ [u]) m' (by rw [hsplit]; simp)
          (hvalsS.trans ((List.Perm.cons u hvals).trans
            (List.perm_append_singleton u pre).symm))
          ((hkeys.nodup_iff).mpr (List.nodup_cons.mpr
            ⟨fun hr => lookupAssoc_none_not_key hrnone hr, hndk⟩))

/-- **C3.** `create_mapping` is complete: whenever some permutation of the
names satisfies the self-assignment rule and all exclusions, it returns a
valid full assignment and does not raise — so `UnsatisfiableError` is raised
only when no valid permutation exists, a verdict reached by the exact
matching phase (the randomized phase never raises; when it fails the run
falls through to the matching phase). -/
theorem claim_C3 (participants : List Entry) (ban_self : Bool)
    (rng : Nat → List String) (people : List String)
    (exclusions : List (String × Finset String))
    (hnorm : _normalize_participants participants = .ok (people, exclusions))
    (hrng : ∀ k, (rng k).Perm people)
    (hsat : ∃ targets, targets.Perm people ∧
      permOk people exclusions ban_self targets = true) :
    ∃ mp, create_mapping participants ban_self rng = .ok mp ∧
      (mp.map Prod.fst).Perm people ∧
      ∀ p ∈ mp, pairOk exclusions ban_self p.1 p.2 = true := by
  obtain ⟨hndp, -, -⟩ := normalize_spec hnorm
  unfold create_mapping
  rw [hnorm]
  simp only
  cases hrand : _try_random_permutation_exclusions people exclusions ban_self rng with
  | some rand =>
    obtain ⟨k, hk1, hk2⟩ := tryRandomAux_some hrand
    refine ⟨rand, rfl, ?_, ?_⟩
    · rw [hk2]
      have hlen : people.length = (rng k).length := (hrng k).length_eq.symm
      rw [List.map_fst_zip people (rng k) (le_of_eq hlen)]
    · rw [hk2]
      exact permOk_mem hk1
  | none =>
    obtain ⟨targets, hperm, hok⟩ := hsat
    have hpne : people ≠ [] := by
      intro hpe
      subst hpe
      have : _try_random_permutation_exclusions [] exclusions ban_self rng =
          some [] := rfl
      rw [this] at hrand
      simp at hrand
    cases hml : matchLoop (buildAllowed people exclusions ban_self) people [] with
    | none =>
      exact absurd hml (matchLoop_complete hndp hperm hok people [] []
        (by simp) (by simp) (by simp))
    | some matchR =>
      obtain ⟨c1, c2, c3, c4⟩ := matchLoop_sound _ people [] matchR hml
        (by simp) (by simp) (by simp)
      have hmax : _maximum_bipartite_matching people
          (buildAllowed people exclusions ban_self) =
          matchR.map (fun rl => (rl.2, rl.1)) := by
        unfold _maximum_bipartite_matching
        rw [hml]
      have hvperm : (matchR.map Prod.snd).Perm people := by simpa using c3
      have hmne : matchR ≠ [] := by
        intro hme
        subst hme
        have := hvperm.symm.eq_nil
        simp at this
        exact hpne this
      have hnemap : (matchR.map fun rl => (rl.2, rl.1)) ≠ [] := by
        simpa using hmne
      rw [hmax]
      rw [if_neg (by simpa using hnemap)]
      refine ⟨matchR.map (fun rl => (rl.2, rl.1)), rfl, ?_, ?_⟩
      · have hfst : ((matchR.map fun rl => (rl.2, rl.1)).map Prod.fst) =
            matchR.map Prod.snd := by
          rw [List.map_map]
          rfl
        rw [hfst]
        exact hvperm
      · intro p hp
        obtain ⟨rl, hrl, hrlp⟩ := List.mem_map.mp hp
        have hedge := c4 rl hrl
        have hmem := mem_allowedOf_buildAllowed hedge
        rw [← hrlp]
        exact hmem.2

theorem claim_C3_witness :
    ∃ mp, create_mapping [Entry.str "X", Entry.str "Y"] true (fun _ => ["X", "Y"]) =
        .ok mp ∧
      (mp.map Prod.fst).Perm ["X", "Y"] ∧
      ∀ p ∈ mp, pairOk [("X", ∅), ("Y", ∅)] true p.1 p.2 = true :=
  claim_C3 [Entry.str "X", Entry.str "Y"] true (fun _ => ["X", "Y"])
    ["X", "Y"] [("X", ∅), ("Y", ∅)] rfl
    (fun _ => (by decide : (["X", "Y"] : List String).Perm ["X", "Y"]))
    ⟨["Y", "X"], by decide, by decide⟩
